import Mathlib

/-!
Shallow embedding of the local-documentation indexer and search engine of
`appledeepdoc-mcp` (files `appledeepdoc_mcp/docs/local_docs.py` and
`appledeepdoc_mcp/config.py`).

Python strings are modelled as Lean `String` (match positions are
code-point indices, exactly as Python `str` indices); Python dicts that
preserve insertion order are modelled as association lists with
insert-or-overwrite-in-place semantics; fallible filesystem reads are
modelled with `Option`.  The Python `list.sort(key=...)` is a stable sort by
key; it is modelled as sorting index-tagged elements by the lexicographic
order (key, original index), which has the same input/output behaviour.
Case-insensitive matching (`re.IGNORECASE` / `str.lower`) is modelled with
`Char.toLower`, which agrees with Python on ASCII.
-/

namespace AppleDeepDoc

/-- Python `\s` whitespace class over the characters that can occur after
universal-newline translation. -/
def pySpace (c : Char) : Bool :=
  c = ' ' || c = '\t' || c = '\n' || c = '\r' || c = '\x0b' || c = '\x0c'

/-- Character comparison used by the search regex: exact when
`caseSensitive`, lower-cased otherwise (`re.IGNORECASE` on ASCII). -/
def charEq (caseSensitive : Bool) (a b : Char) : Bool :=
  if caseSensitive then a = b else a.toLower = b.toLower

/-- Does `q` match at the start of `s` (character-wise, with the given
case sensitivity)? -/
def matchesAt (cs : Bool) : List Char → List Char → Bool
  | [], _ => true
  | _ :: _, [] => false
  | a :: as, b :: bs => charEq cs a b && matchesAt cs as bs

/-- Python `pattern.search`: does the literal query `q` occur anywhere in `s`? -/
def containsSub (cs : Bool) (q : List Char) : List Char → Bool
  | [] => matchesAt cs q []
  | c :: rest => matchesAt cs q (c :: rest) || containsSub cs q rest

/-- Scanner for `findIter`, structurally recursive on a fuel bound that
dominates the length of the remaining text. -/
def findIterAux (cs : Bool) (q : List Char) : Nat → List Char → Nat → List (Nat × Nat)
  | _, [], i => if q.isEmpty then [(i, i)] else []
  | 0, _ :: _, _ => []
  | fuel + 1, c :: rest, i =>
    if q.isEmpty then (i, i) :: findIterAux cs q fuel rest (i + 1)
    else if matchesAt cs q (c :: rest) then
      (i, i + q.length) ::
        findIterAux cs q fuel (List.drop (q.length - 1) rest) (i + q.length)
    else findIterAux cs q fuel rest (i + 1)

/-- Python `pattern.finditer`: the `(start, stop)` spans of the non-overlapping,
leftmost occurrences of the literal query `q` in the text, scanning from
character offset `i`.  A zero-width (empty) query matches at every
offset, as in Python. -/
def findIter (cs : Bool) (q : List Char) (l : List Char) (i : Nat) : List (Nat × Nat) :=
  findIterAux cs q l.length l i

/-- Python `str.strip()` restricted to whitespace. -/
def stripList (l : List Char) : List Char :=
  ((l.dropWhile pySpace).reverse.dropWhile pySpace).reverse

/-- Worker for `collapseWs`; the flag records whether the previous
character belonged to a whitespace run already replaced by a space. -/
def collapseWsAux : Bool → List Char → List Char
  | _, [] => []
  | prevWs, c :: rest =>
    if pySpace c then
      if prevWs then collapseWsAux true rest
      else ' ' :: collapseWsAux true rest
    else c :: collapseWsAux false rest

/-- Whitespace normalisation: collapse every maximal whitespace run to a
single space, as the substitution of the whitespace-run regex does. -/
def collapseWs (l : List Char) : List Char :=
  collapseWsAux false l

/-- The context window of `local_docs.py` lines 137-143, parameterised by
the window width `w` (the source fixes `w = 50`): clip `w` characters
before the match start `ms` and after the match end `me` to the document
bounds, strip, and collapse whitespace. -/
def mkContextW (w : Nat) (content : List Char) (ms me : Nat) : List Char :=
  let start := ms - w
  let stop := min content.length (me + w)
  collapseWs (stripList ((content.drop start).take (stop - start)))

/-- Metadata stored in `docs_cache` for one document. -/
structure DocInfo where
  path : String
  name : String
  size : Nat
  xcode_source : String
  topics : List String
  deriving DecidableEq

/-- One entry of the `matches` list of a result; `position` is set only for
content matches. -/
structure DocMatch where
  «type» : String
  context : String
  position : Option Nat
  deriving DecidableEq

/-- One entry of the `results` list of a search response. -/
structure SearchResult where
  document : String
  xcode_version : String
  «matches» : List DocMatch
  total_matches : Nat
  deriving DecidableEq

/-- The dictionary returned by `LocalDocsManager.search`. -/
structure SearchResponse where
  query : String
  total_results : Nat
  results : List SearchResult
  deriving DecidableEq

/-- The two parallel caches of `LocalDocsManager`, as insertion-ordered
association lists (Python dicts preserve insertion order). -/
structure IndexState where
  docs_cache : List (String × DocInfo)
  content_cache : List (String × String)
  deriving DecidableEq

/-- Ordered-dict lookup: `d.get(k)`. -/
def lookupAssoc {α : Type} (m : List (String × α)) (k : String) : Option α :=
  (m.find? fun p => p.1 == k).map (·.2)

/-- Ordered-dict assignment `d[k] = v`: overwrite in place if the key is
present, append otherwise. -/
def insertAssoc {α : Type} (m : List (String × α)) (k : String) (v : α) : List (String × α) :=
  if m.any fun p => p.1 == k then
    m.map fun p => if p.1 == k then (k, v) else p
  else m ++ [(k, v)]

/-- One markdown file as found on disk: `readResult` is `some (text,
byteSize)` when `read_text` and `stat` succeed, `none` when the file is
skipped because reading raised. -/
structure DocFile where
  path : String
  stem : String
  readResult : Option (String × Nat)
  deriving DecidableEq

/-- One Xcode installation: its derived tag (`xcode_name`) and the `*.md`
files of its AdditionalDocumentation folder, in glob order. -/
structure Installation where
  tag : String
  files : List DocFile
  deriving DecidableEq

/-- Split a text into lines at newline characters. -/
def splitOnNl : List Char → List (List Char)
  | [] => [[]]
  | '\n' :: rest => [] :: splitOnNl rest
  | c :: rest =>
    match splitOnNl rest with
    | h :: t => (c :: h) :: t
    | [] => [[c]]

/-- One line matched against the header pattern of 1-3 hash marks, one or
more whitespace characters, then a non-empty greedy capture to the end of
the line (with the regex backtracking on all-whitespace remainders). -/
def headerOfLine (line : List Char) : Option String :=
  let hashes := (line.takeWhile fun c => c = '#').length
  if 1 ≤ hashes ∧ hashes ≤ 3 then
    let rest := line.drop hashes
    let sp := (rest.takeWhile pySpace).length
    if sp = 0 then none
    else if sp < rest.length then some (String.mk (rest.drop sp))
    else if 2 ≤ sp then some (String.mk (rest.drop (sp - 1)))
    else none
  else none

/-- The topic headers stored for a document: the multiline header-regex
findall over the first 500 characters of the content, truncated to 5. -/
def extractTopics (content : List Char) : List String :=
  (((splitOnNl (content.take 500)).filterMap headerOfLine).take 5)

/-- Process a single `*.md` file of an installation (the body of the inner
loop of `LocalDocsManager.initialize`): on read failure the state is
unchanged; on success both caches are assigned under the composite key. -/
def buildStep (tag : String) (st : IndexState) (f : DocFile) : IndexState :=
  match f.readResult with
  | none => st
  | some (content, size) =>
    let key := tag ++ "::" ++ f.stem
    { docs_cache := insertAssoc st.docs_cache key
        ⟨f.path, f.stem, size, tag, extractTopics content.data⟩,
      content_cache := insertAssoc st.content_cache key content }

/-- The index build of `LocalDocsManager.initialize` over the resolved
installations, starting from empty caches. -/
def buildState (insts : List Installation) : IndexState :=
  insts.foldl (fun st inst => inst.files.foldl (buildStep inst.tag) st) ⟨[], []⟩

/-- The filesystem facts `Config` consults: whether a path exists, and the
qualifying documentation folders `find_xcode_documentation_paths` returns
(candidates under /Applications whose doc subpath exists, is a directory
and holds at least one `*.md` file, in glob order). -/
structure FileSystem where
  pathExists : String → Bool
  discoveredDocPaths : List String

/-- A single ASCII apostrophe. -/
def sq : String := String.mk [Char.ofNat 39]

/-- Error message for an override path that does not exist. -/
def customErrorMessage (p : String) : String :=
  "Custom documentation path does not exist: " ++ p

/-- Error message when discovery finds no qualifying installation. -/
def noXcodeErrorMessage : String :=
  "No Xcode installations with additional documentation found. " ++
  "Searched in /Applications for Xcode*.app. " ++
  "You can set XCODE_DOC_PATH environment variable to specify a custom path."

/-- Model of `Config.get_documentation_paths`: `customPath` is the value of the
`XCODE_DOC_PATH` environment variable (`none` when unset; the empty
string is falsy in Python, hence treated like an unset variable).
Raising `ValueError` is modelled as `Except.error`. -/
def getDocumentationPaths (fs : FileSystem) (customPath : Option String) :
    Except String (List String) :=
  match customPath with
  | some p =>
    if p ≠ "" then
      if fs.pathExists p then Except.ok [p] else Except.error (customErrorMessage p)
    else
      if fs.discoveredDocPaths.isEmpty then Except.error noXcodeErrorMessage
      else Except.ok fs.discoveredDocPaths
  | none =>
    if fs.discoveredDocPaths.isEmpty then Except.error noXcodeErrorMessage
    else Except.ok fs.discoveredDocPaths

/-- How `LocalDocsManager.initialize` views the filesystem: the tag
`Config.get_xcode_name_from_path` derives for a root, and the `*.md`
files globbed directly under it together with their read results. -/
structure DocFS where
  tagOf : String → String
  filesAt : String → List DocFile

/-- Model of `LocalDocsManager.initialize`: a `ValueError` from path resolution is
caught and leaves both caches empty; otherwise the index is built from
the resolved roots. -/
def initializeState (dfs : DocFS) (pathsResult : Except String (List String)) : IndexState :=
  match pathsResult with
  | Except.error _ => ⟨[], []⟩
  | Except.ok paths => buildState (paths.map fun p => ⟨dfs.tagOf p, dfs.filesAt p⟩)

/-- Everything after the first `::` separator, or nothing when the text
holds no separator (the leftmost split of the composite key). -/
def afterSep : List Char → Option (List Char)
  | ':' :: ':' :: rest => some rest
  | _ :: rest => afterSep rest
  | [] => none

/-- Document name extracted from a composite key. -/
def splitKeyName (key : String) : String :=
  String.mk ((afterSep key.data).getD key.data)

/-- Priority-1 filename match (`local_docs.py` lines 126-127). -/
def filenameMatches (cs : Bool) (q : List Char) (docName : String) : List DocMatch :=
  if containsSub cs q docName.data then [⟨"filename", docName, none⟩] else []

/-- The content-match loop (`local_docs.py` lines 132-149): append a
content match per occurrence, breaking as soon as the accumulated match
list reaches 5 entries. -/
def addContentMatches (w : Nat) (content : List Char) :
    List DocMatch → List (Nat × Nat) → List DocMatch
  | acc, [] => acc
  | acc, (s, e) :: rest =>
    if 5 ≤ acc.length then acc
    else addContentMatches w content
      (acc ++ [⟨"content", String.mk (mkContextW w content s e), some s⟩]) rest

/-- All matches recorded for one document: the filename match first, then
content matches when the cached content is non-empty (an empty string is
falsy in Python). -/
def docMatches (w : Nat) (cs : Bool) (q : List Char) (docName : String)
    (content : String) : List DocMatch :=
  let fn := filenameMatches cs q docName
  if content = "" then fn
  else addContentMatches w content.data fn (findIter cs q content.data 0)

/-- The unsorted `results` list of `LocalDocsManager.search`, in
`docs_cache` enumeration order, keeping only documents with at least one
match; parameterised by the context-window width `w`. -/
def searchResults (w : Nat) (st : IndexState) (q : String) (cs : Bool) : List SearchResult :=
  st.docs_cache.filterMap fun p =>
    let docName := splitKeyName p.1
    let content := (lookupAssoc st.content_cache p.1).getD ""
    let ms := docMatches w cs q.data docName content
    if ms.isEmpty then none
    else some ⟨docName, p.2.xcode_source, ms, ms.length⟩

/-- Does a result carry at least one filename-type match? -/
def hasFilenameMatch (r : SearchResult) : Bool :=
  r.«matches».any fun m => m.«type» == "filename"

/-- The sort key of `local_docs.py` lines 163-166: `(not any filename
match, -total_matches)`, ascending. -/
def rankKey (r : SearchResult) : Nat × Int :=
  (if hasFilenameMatch r then 0 else 1, -(r.total_matches : Int))

/-- Strict lexicographic order on sort keys. -/
def keyLt (x y : Nat × Int) : Prop :=
  x.1 < y.1 ∨ (x.1 = y.1 ∧ x.2 < y.2)

instance decKeyLt : ∀ x y, Decidable (keyLt x y) := fun x y =>
  inferInstanceAs (Decidable (x.1 < y.1 ∨ (x.1 = y.1 ∧ x.2 < y.2)))

/-- Order on index-tagged results: by key, with the original position as
tie-break.  Sorting by this relation is extensionally the stable Python
`list.sort(key=...)`. -/
def enumRel (a b : Nat × SearchResult) : Prop :=
  keyLt (rankKey a.2) (rankKey b.2) ∨ (rankKey a.2 = rankKey b.2 ∧ a.1 ≤ b.1)

instance decEnumRel : DecidableRel enumRel := fun a b =>
  inferInstanceAs (Decidable (keyLt (rankKey a.2) (rankKey b.2) ∨
    (rankKey a.2 = rankKey b.2 ∧ a.1 ≤ b.1)))

/-- Stable sort of the results by the rank key, as the sort call with the
key function over (not any filename match, negated total) performs. -/
def rankSort (rs : List SearchResult) : List SearchResult :=
  (rs.enum.insertionSort enumRel).map Prod.snd

/-- Model of `LocalDocsManager.search` with an explicit context-window width. -/
def searchStateW (w : Nat) (st : IndexState) (q : String) (cs : Bool) : SearchResponse :=
  let rs := searchResults w st q cs
  ⟨q, rs.length, (rankSort rs).take 20⟩

/-- Model of `LocalDocsManager.search` as written in the source (window width 50,
result list truncated to 20 documents). -/
def searchState (st : IndexState) (q : String) (cs : Bool) : SearchResponse :=
  searchStateW 50 st q cs

/-- Model of the version filter: `if xcode_version and xcode_version != xcode_source: continue`. -/
def verMismatch (ver : Option String) (src : String) : Bool :=
  match ver with
  | some v => v ≠ "" && v ≠ src
  | none => false

/-- The not-found sentinel string of `get_document`. -/
def notFoundMessage (name : String) (ver : Option String) : String :=
  "Document " ++ sq ++ name ++ sq ++ " not found" ++
    (match ver with
     | some v => if v ≠ "" then " in " ++ v else ""
     | none => "")

/-- The scan loop of `LocalDocsManager.get_document` over `docs_cache`:
cached non-empty content is returned first; an empty cached content falls
back to a disk read (`disk path = some text` models an existing, readable
file); if the path no longer exists the scan continues with the next
entry. -/
def getDocumentGo (content_cache : List (String × String)) (disk : String → Option String)
    (name : String) (ver : Option String) : List (String × DocInfo) → String
  | [] => notFoundMessage name ver
  | (key, info) :: rest =>
    if splitKeyName key = name ∨ info.name = name then
      if verMismatch ver info.xcode_source then getDocumentGo content_cache disk name ver rest
      else
        let content := (lookupAssoc content_cache key).getD ""
        if content ≠ "" then content
        else
          match disk info.path with
          | some text => text
          | none => getDocumentGo content_cache disk name ver rest
    else getDocumentGo content_cache disk name ver rest

/-- Model of `LocalDocsManager.get_document`. -/
def getDocument (st : IndexState) (disk : String → Option String)
    (name : String) (ver : Option String) : String :=
  getDocumentGo st.content_cache disk name ver st.docs_cache

/-- The first `docs_cache` entry whose extracted or stored name equals the
requested name (what the `get_document` scan encounters first). -/
def firstNameMatch (cache : List (String × DocInfo)) (name : String) :
    Option (String × DocInfo) :=
  cache.find? fun p => decide (splitKeyName p.1 = name) || decide (p.2.name = name)

/-- One entry of the `list_documents` output. -/
structure DocSummary where
  name : String
  topics : List String
  size : Nat
  xcode_versions : List String
  deriving DecidableEq

/-- Byte-wise lexicographic order on strings (Python string comparison by
code point). -/
def charsLe : List Char → List Char → Bool
  | [], _ => true
  | _ :: _, [] => false
  | a :: as, b :: bs => a.val.toNat < b.val.toNat || (a = b && charsLe as bs)

/-- String comparison used to model Python `sorted`. -/
def strLe (a b : String) : Prop := charsLe a.data b.data = true

instance decStrLe : DecidableRel strLe := fun a b =>
  inferInstanceAs (Decidable (charsLe a.data b.data = true))

/-- Model of `sorted(set(xs))` for strings: ascending order, duplicates removed. -/
def sortedSet (l : List String) : List String :=
  l.dedup.insertionSort strLe

/-- Model of `LocalDocsManager._get_versions_for_doc`. -/
def versionsForDoc (cache : List (String × DocInfo)) (docName : String) : List String :=
  sortedSet (cache.filterMap fun p =>
    if p.2.name = docName then some p.2.xcode_source else none)

/-- Model of the lower-cased substring filter test of `list_documents`
(an empty filter string is falsy, hence no filtering). -/
def filterSkips (filt : Option String) (docName : String) : Bool :=
  match filt with
  | some f => f ≠ "" && !(containsSub false f.data docName.data)
  | none => false

/-- The accumulation loop of `LocalDocsManager.list_documents`: skip names
already seen, skip filtered names without marking them seen, otherwise
emit a summary. -/
def listDocumentsAux (cache : List (String × DocInfo)) (filt : Option String) :
    List (String × DocInfo) → List String → List DocSummary
  | [], _ => []
  | (_, info) :: rest, seen =>
    if info.name ∈ seen then listDocumentsAux cache filt rest seen
    else if filterSkips filt info.name then listDocumentsAux cache filt rest seen
    else ⟨info.name, info.topics, info.size, versionsForDoc cache info.name⟩ ::
      listDocumentsAux cache filt rest (info.name :: seen)

/-- Order on summaries used by `documents.sort(key=lambda x: x["name"])`
(names in the output are pairwise distinct, so plain insertion sort
coincides with the stable Python sort). -/
def summaryLe (a b : DocSummary) : Prop := strLe a.name b.name

instance decSummaryLe : DecidableRel summaryLe := fun a b =>
  inferInstanceAs (Decidable (strLe a.name b.name))

/-- Model of `LocalDocsManager.list_documents`. -/
def listDocuments (cache : List (String × DocInfo)) (filt : Option String) : List DocSummary :=
  (listDocumentsAux cache filt cache []).insertionSort summaryLe

/-- Model of `LocalDocsManager.get_xcode_versions`. -/
def getXcodeVersions (cache : List (String × DocInfo)) : List String :=
  sortedSet (cache.map fun p => p.2.xcode_source)

/-- Number of bytes of the UTF-8 encoding of a character list. -/
def utf8Length (l : List Char) : Nat :=
  (l.map Char.utf8Size).sum

end AppleDeepDoc

namespace AppleDeepDoc

/-- Concrete one-document index used to evaluate the context-window
example. -/
def exInfo5 : DocInfo := ⟨"/tmp/doc.md", "doc", 9, "A", []⟩

/-- Index holding the single document `"abcXYZdef"`. -/
def exSt5 : IndexState := ⟨[("A::doc", exInfo5)], [("A::doc", "abcXYZdef")]⟩

/-- Concrete document metadata for the non-ASCII offset example. -/
def exInfo9 : DocInfo := ⟨"/tmp/d.md", "d", 3, "A", []⟩

/-- Index holding the single document `"éX"`, whose first character
occupies two UTF-8 bytes. -/
def exSt9 : IndexState := ⟨[("A::d", exInfo9)], [("A::d", "éX")]⟩

/-- Metadata of the same stem `X` contributed by installation A. -/
def exInfoA : DocInfo := ⟨"/a/X.md", "X", 0, "A", []⟩

/-- Metadata of the same stem `X` contributed by installation B. -/
def exInfoB : DocInfo := ⟨"/b/X.md", "X", 5, "B", []⟩

/-- Index in which the first-inserted copy of `X` has empty cached
content and the later copy holds `"hello"`. -/
def exSt10 : IndexState :=
  ⟨[("A::X", exInfoA), ("B::X", exInfoB)], [("A::X", ""), ("B::X", "hello")]⟩

/-- Index in which the first-inserted copy of `X` has non-empty cached
content. -/
def exSt10b : IndexState :=
  ⟨[("A::X", exInfoA), ("B::X", exInfoB)], [("A::X", "va"), ("B::X", "vb")]⟩

/-- A disk on which no path exists any more at query time. -/
def noDisk : String → Option String := fun _ => none

/-- Cache with the stem `doc` present in installations A and B. -/
def exCache8 : List (String × DocInfo) :=
  [("A::doc", ⟨"/a/doc.md", "doc", 1, "A", []⟩),
   ("B::doc", ⟨"/b/doc.md", "doc", 2, "B", []⟩)]

/-- A filesystem with no qualifying Xcode installation. -/
def exEmptyFS : FileSystem := ⟨fun _ => false, []⟩

/-- A document filesystem view (irrelevant contents). -/
def exDFS : DocFS := ⟨fun _ => "X", fun _ => []⟩

/-- Installations A and B both contributing a file with stem `doc`. -/
def exInsts : List Installation :=
  [⟨"A", [⟨"/a/doc.md", "doc", some ("x", 1)⟩]⟩,
   ⟨"B", [⟨"/b/doc.md", "doc", some ("y", 1)⟩]⟩]

/-- The single result produced by searching `exSt9` for `X`. -/
def exResult9 : SearchResult := ⟨"d", "A", [⟨"content", "éX", some 1⟩], 1⟩

/-- The summary produced by `list_documents` on `exCache8`. -/
def exSummary8 : DocSummary := ⟨"doc", [], 1, ["A", "B"]⟩

theorem foldl_invariant {α β : Type} (P : β → Prop) (f : β → α → β)
    (h : ∀ b a, P b → P (f b a)) :
    ∀ (l : List α) (b : β), P b → P (l.foldl f b) := by
  intro l
  induction l with
  | nil => intro b hb; exact hb
  | cons a l ih => intro b hb; exact ih (f b a) (h b a hb)

theorem any_eq_any_map_fst {α : Type} (m : List (String × α)) (k : String) :
    (m.any fun p => p.1 == k) = ((m.map Prod.fst).any fun x => x == k) := by
  induction m with
  | nil => rfl
  | cons p t ih => simp only [List.any_cons, List.map_cons, ih]

theorem map_fst_insertAssoc {α : Type} (m : List (String × α)) (k : String) (v : α) :
    (insertAssoc m k v).map Prod.fst =
      if m.any fun p => p.1 == k then m.map Prod.fst else m.map Prod.fst ++ [k] := by
  unfold insertAssoc
  split
  · rw [List.map_map]
    apply List.map_congr_left
    intro p _
    by_cases h : p.1 == k
    · simp only [Function.comp_apply, h, if_pos]
      exact (eq_of_beq h).symm
    · simp only [Function.comp_apply, h]
      rfl
  · simp

theorem mem_map_fst_insertAssoc_self {α : Type} (m : List (String × α)) (k : String) (v : α) :
    k ∈ (insertAssoc m k v).map Prod.fst := by
  rw [map_fst_insertAssoc]
  split
  · rename_i h
    rcases List.any_eq_true.mp h with ⟨p, hp, he⟩
    have : p.1 = k := eq_of_beq he
    exact this ▸ List.mem_map_of_mem Prod.fst hp
  · exact List.mem_append_right _ (List.mem_singleton.mpr rfl)

theorem mem_map_fst_insertAssoc_of_mem {α : Type} {m : List (String × α)} {k' : String}
    (k : String) (v : α) (h : k' ∈ m.map Prod.fst) :
    k' ∈ (insertAssoc m k v).map Prod.fst := by
  rw [map_fst_insertAssoc]
  split
  · exact h
  · exact List.mem_append_left _ h

theorem nodup_map_fst_insertAssoc {α : Type} {m : List (String × α)}
    (k : String) (v : α) (h : (m.map Prod.fst).Nodup) :
    ((insertAssoc m k v).map Prod.fst).Nodup := by
  rw [map_fst_insertAssoc]
  split
  · exact h
  · rename_i hna
    rw [List.nodup_append]
    refine ⟨h, List.nodup_singleton k, ?_⟩
    intro x hx hk
    rw [List.mem_singleton] at hk
    subst hk
    rcases List.mem_map.mp hx with ⟨p, hp, hfst⟩
    exact hna (List.any_eq_true.mpr ⟨p, hp, beq_iff_eq.mpr hfst⟩)

theorem buildStep_keys_eq (tag : String) (st : IndexState) (f : DocFile)
    (h : st.docs_cache.map Prod.fst = st.content_cache.map Prod.fst) :
    (buildStep tag st f).docs_cache.map Prod.fst =
      (buildStep tag st f).content_cache.map Prod.fst := by
  unfold buildStep
  cases hr : f.readResult with
  | none => exact h
  | some p =>
    cases p with
    | mk c sz =>
      simp only
      rw [map_fst_insertAssoc, map_fst_insertAssoc,
        any_eq_any_map_fst, any_eq_any_map_fst, h]

/-- C4: after every run of the index build, the metadata map and the
content map hold exactly the same composite keys, in the same order, no
matter which files were skipped for read failures. -/
theorem build_key_sets_equal (insts : List Installation) :
    (buildState insts).docs_cache.map Prod.fst =
      (buildState insts).content_cache.map Prod.fst :=
  foldl_invariant
    (fun st => st.docs_cache.map Prod.fst = st.content_cache.map Prod.fst)
    (fun st inst => inst.files.foldl (buildStep inst.tag) st)
    (fun st inst hst =>
      foldl_invariant _ (buildStep inst.tag)
        (fun st' f h => buildStep_keys_eq inst.tag st' f h) inst.files st hst)
    insts ⟨[], []⟩ rfl

theorem mem_keys_buildStep_mono {st : IndexState} {k : String} (tag : String) (f : DocFile)
    (h : k ∈ st.docs_cache.map Prod.fst) :
    k ∈ (buildStep tag st f).docs_cache.map Prod.fst := by
  unfold buildStep
  cases f.readResult with
  | none => exact h
  | some p => cases p with
    | mk c sz => exact mem_map_fst_insertAssoc_of_mem _ _ h

theorem mem_keys_buildStep_self {f : DocFile} (tag : String) (st : IndexState)
    (h : f.readResult.isSome = true) :
    (tag ++ "::" ++ f.stem) ∈ (buildStep tag st f).docs_cache.map Prod.fst := by
  unfold buildStep
  cases hr : f.readResult with
  | none => rw [hr] at h; exact absurd h (by simp)
  | some p => cases p with
    | mk c sz => exact mem_map_fst_insertAssoc_self _ _ _

theorem mem_keys_foldl_files_mono {st : IndexState} {k : String} (tag : String)
    (files : List DocFile) (h : k ∈ st.docs_cache.map Prod.fst) :
    k ∈ (files.foldl (buildStep tag) st).docs_cache.map Prod.fst := by
  induction files generalizing st with
  | nil => exact h
  | cons f fs ih => exact ih (mem_keys_buildStep_mono tag f h)

theorem mem_keys_foldl_files_self {f : DocFile} (tag : String)
    (hr : f.readResult.isSome = true) :
    ∀ (files : List DocFile) (st : IndexState), f ∈ files →
      (tag ++ "::" ++ f.stem) ∈ (files.foldl (buildStep tag) st).docs_cache.map Prod.fst := by
  intro files
  induction files with
  | nil => intro st hf; cases hf
  | cons g gs ih =>
    intro st hf
    rcases List.mem_cons.mp hf with hg | hg
    · subst hg
      exact mem_keys_foldl_files_mono tag gs (mem_keys_buildStep_self tag st hr)
    · exact ih (buildStep tag st g) hg

theorem mem_keys_foldl_insts_mono {k : String} :
    ∀ (insts : List Installation) (st : IndexState), k ∈ st.docs_cache.map Prod.fst →
      k ∈ ((insts.foldl (fun st' inst => inst.files.foldl (buildStep inst.tag) st')
        st).docs_cache.map Prod.fst) := by
  intro insts
  induction insts with
  | nil => intro st h; exact h
  | cons i is ih =>
    intro st h
    exact ih _ (mem_keys_foldl_files_mono i.tag i.files h)

theorem mem_keys_buildState {insts : List Installation} {inst : Installation} {f : DocFile}
    (hi : inst ∈ insts) (hf : f ∈ inst.files) (hr : f.readResult.isSome = true) :
    (inst.tag ++ "::" ++ f.stem) ∈ (buildState insts).docs_cache.map Prod.fst := by
  have main : ∀ (l : List Installation) (st : IndexState), inst ∈ l →
      (inst.tag ++ "::" ++ f.stem) ∈ ((l.foldl (fun st' i => i.files.foldl (buildStep i.tag) st')
        st).docs_cache.map Prod.fst) := by
    intro l
    induction l with
    | nil => intro st hg; cases hg
    | cons i is ih =>
      intro st hg
      rcases List.mem_cons.mp hg with hg' | hg'
      · subst hg'
        exact mem_keys_foldl_insts_mono is _ (mem_keys_foldl_files_self inst.tag hr inst.files st hf)
      · exact ih _ hg'
  exact main insts ⟨[], []⟩ hi

theorem nodup_keys_buildStep (tag : String) (st : IndexState) (f : DocFile)
    (h : (st.docs_cache.map Prod.fst).Nodup) :
    ((buildStep tag st f).docs_cache.map Prod.fst).Nodup := by
  unfold buildStep
  cases hr : f.readResult with
  | none => exact h
  | some p =>
    cases p with
    | mk c sz => exact nodup_map_fst_insertAssoc _ _ h

theorem nodup_keys_buildState (insts : List Installation) :
    ((buildState insts).docs_cache.map Prod.fst).Nodup :=
  foldl_invariant (fun st => (st.docs_cache.map Prod.fst).Nodup)
    (fun st inst => inst.files.foldl (buildStep inst.tag) st)
    (fun st inst hst =>
      foldl_invariant _ (buildStep inst.tag)
        (fun st' f h => nodup_keys_buildStep inst.tag st' f h) inst.files st hst)
    insts ⟨[], []⟩ List.nodup_nil

theorem tag_of_key_injective {t₁ t₂ s : String}
    (h : t₁ ++ "::" ++ s = t₂ ++ "::" ++ s) : t₁ = t₂ := by
  have hd : (t₁.data ++ "::".data) ++ s.data = (t₂.data ++ "::".data) ++ s.data := by
    have := congrArg String.data h
    simpa [String.data_append, List.append_assoc] using this
  have h₂ := List.append_cancel_right hd
  exact String.ext (List.append_cancel_right h₂)

/-- C3: when two installations with distinct tags each contribute a
document with the same stem, the built index holds both composite keys as
distinct keys, and every key of the built index owns exactly one entry
(the key list is duplicate-free), so neither document overwrites the
other. -/
theorem buildState_distinct_tags_separate_entries
    (insts : List Installation) (i₁ i₂ : Installation) (f₁ f₂ : DocFile)
    (h₁ : i₁ ∈ insts) (h₂ : i₂ ∈ insts) (hne : i₁.tag ≠ i₂.tag)
    (hf₁ : f₁ ∈ i₁.files) (hf₂ : f₂ ∈ i₂.files) (hs : f₁.stem = f₂.stem)
    (hr₁ : f₁.readResult.isSome = true) (hr₂ : f₂.readResult.isSome = true) :
    (i₁.tag ++ "::" ++ f₁.stem) ≠ (i₂.tag ++ "::" ++ f₂.stem) ∧
    (i₁.tag ++ "::" ++ f₁.stem) ∈ (buildState insts).docs_cache.map Prod.fst ∧
    (i₂.tag ++ "::" ++ f₂.stem) ∈ (buildState insts).docs_cache.map Prod.fst ∧
    ((buildState insts).docs_cache.map Prod.fst).Nodup := by
  refine ⟨?_, mem_keys_buildState h₁ hf₁ hr₁, mem_keys_buildState h₂ hf₂ hr₂,
    nodup_keys_buildState insts⟩
  intro he
  rw [hs] at he
  exact hne (tag_of_key_injective he)

/-- Closed instance of the separate-entries theorem on a two-installation
corpus sharing the stem `doc`. -/
theorem buildState_distinct_tags_separate_entries_witness :
    ("A" ++ "::" ++ "doc") ≠ ("B" ++ "::" ++ "doc") ∧
    ("A" ++ "::" ++ "doc") ∈ (buildState exInsts).docs_cache.map Prod.fst ∧
    ("B" ++ "::" ++ "doc") ∈ (buildState exInsts).docs_cache.map Prod.fst ∧
    ((buildState exInsts).docs_cache.map Prod.fst).Nodup :=
  buildState_distinct_tags_separate_entries exInsts
    ⟨"A", [⟨"/a/doc.md", "doc", some ("x", 1)⟩]⟩
    ⟨"B", [⟨"/b/doc.md", "doc", some ("y", 1)⟩]⟩
    ⟨"/a/doc.md", "doc", some ("x", 1)⟩ ⟨"/b/doc.md", "doc", some ("y", 1)⟩
    (by decide) (by decide) (by decide) (by decide) (by decide) rfl (by decide) (by decide)

end AppleDeepDoc

namespace AppleDeepDoc

/-- C6: when discovery yields no roots and no override is set, the
initialisation failure is swallowed, both caches stay empty, and every
search returns zero results with an empty result list. -/
theorem empty_discovery_search_empty (cfs : FileSystem) (dfs : DocFS)
    (h : cfs.discoveredDocPaths = []) :
    (initializeState dfs (getDocumentationPaths cfs none)).docs_cache = [] ∧
    (initializeState dfs (getDocumentationPaths cfs none)).content_cache = [] ∧
    ∀ (q : String) (cs : Bool),
      (searchState (initializeState dfs (getDocumentationPaths cfs none)) q cs).total_results
        = 0 ∧
      (searchState (initializeState dfs (getDocumentationPaths cfs none)) q cs).results
        = [] := by
  have hp : getDocumentationPaths cfs none = Except.error noXcodeErrorMessage := by
    unfold getDocumentationPaths
    rw [h]
    rfl
  rw [hp]
  exact ⟨rfl, rfl, fun q cs => ⟨rfl, rfl⟩⟩

/-- Closed instance of the empty-corpus theorem at a concrete filesystem
with no qualifying installation. -/
theorem empty_discovery_search_empty_witness :
    (initializeState exDFS (getDocumentationPaths exEmptyFS none)).docs_cache = [] ∧
    (initializeState exDFS (getDocumentationPaths exEmptyFS none)).content_cache = [] ∧
    (searchState (initializeState exDFS (getDocumentationPaths exEmptyFS none))
      "liquid glass" false).total_results = 0 ∧
    (searchState (initializeState exDFS (getDocumentationPaths exEmptyFS none))
      "liquid glass" false).results = [] := by
  have h := empty_discovery_search_empty exEmptyFS exDFS rfl
  exact ⟨h.1, h.2.1, (h.2.2 "liquid glass" false).1, (h.2.2 "liquid glass" false).2⟩

/-- C7: path resolution errors exactly when a non-empty override path does
not exist, or when no override is effective and discovery is empty; in
the latter case the message names the search location and the override
variable; in all remaining cases the roots are returned. -/
theorem getDocumentationPaths_spec (fs : FileSystem) (ov : Option String) :
    ((∃ msg, getDocumentationPaths fs ov = Except.error msg) ↔
      ((∃ p, ov = some p ∧ p ≠ "" ∧ fs.pathExists p = false) ∨
       ((ov = none ∨ ov = some "") ∧ fs.discoveredDocPaths = []))) ∧
    ((ov = none ∨ ov = some "") → fs.discoveredDocPaths = [] →
      getDocumentationPaths fs ov = Except.error noXcodeErrorMessage ∧
      containsSub true "/Applications".data noXcodeErrorMessage.data = true ∧
      containsSub true "XCODE_DOC_PATH".data noXcodeErrorMessage.data = true) ∧
    (∀ p, ov = some p → p ≠ "" → fs.pathExists p = true →
      getDocumentationPaths fs ov = Except.ok [p]) ∧
    ((ov = none ∨ ov = some "") → fs.discoveredDocPaths ≠ [] →
      getDocumentationPaths fs ov = Except.ok fs.discoveredDocPaths) := by
  have hApp : containsSub true "/Applications".data noXcodeErrorMessage.data = true := by
    decide
  have hEnv : containsSub true "XCODE_DOC_PATH".data noXcodeErrorMessage.data = true := by
    decide
  cases ov with
  | none =>
    by_cases hd : fs.discoveredDocPaths = []
    · have hres : getDocumentationPaths fs none = Except.error noXcodeErrorMessage := by
        unfold getDocumentationPaths
        rw [hd]
        rfl
      refine ⟨⟨fun _ => Or.inr ⟨Or.inl rfl, hd⟩, fun _ => ⟨_, hres⟩⟩,
        fun _ _ => ⟨hres, hApp, hEnv⟩, ?_, ?_⟩
      · intro p hp
        exact Option.noConfusion hp
      · intro _ hne
        exact absurd hd hne
    · have hie : fs.discoveredDocPaths.isEmpty = false := by
        cases hll : fs.discoveredDocPaths with
        | nil => exact absurd hll hd
        | cons a l => rfl
      have hres : getDocumentationPaths fs none = Except.ok fs.discoveredDocPaths := by
        unfold getDocumentationPaths
        rw [hie]
        rfl
      refine ⟨⟨?_, ?_⟩, ?_, ?_, fun _ _ => hres⟩
      · rintro ⟨msg, hmsg⟩
        rw [hres] at hmsg
        exact Except.noConfusion hmsg
      · rintro (⟨p, hp, -, -⟩ | ⟨-, h2⟩)
        · exact Option.noConfusion hp
        · exact absurd h2 hd
      · intro _ h2
        exact absurd h2 hd
      · intro p hp
        exact Option.noConfusion hp
  | some p =>
    by_cases hp : p = ""
    · subst hp
      by_cases hd : fs.discoveredDocPaths = []
      · have hres : getDocumentationPaths fs (some "") = Except.error noXcodeErrorMessage := by
          unfold getDocumentationPaths
          rw [hd]
          rfl
        refine ⟨⟨fun _ => Or.inr ⟨Or.inr rfl, hd⟩, fun _ => ⟨_, hres⟩⟩,
          fun _ _ => ⟨hres, hApp, hEnv⟩, ?_, ?_⟩
        · intro p' hp' hne _
          exact absurd (Option.some.inj hp').symm hne
        · intro _ hne
          exact absurd hd hne
      · have hie : fs.discoveredDocPaths.isEmpty = false := by
          cases hll : fs.discoveredDocPaths with
          | nil => exact absurd hll hd
          | cons a l => rfl
        have hres : getDocumentationPaths fs (some "") = Except.ok fs.discoveredDocPaths := by
          unfold getDocumentationPaths
          rw [hie]
          rfl
        refine ⟨⟨?_, ?_⟩, ?_, ?_, fun _ _ => hres⟩
        · rintro ⟨msg, hmsg⟩
          rw [hres] at hmsg
          exact Except.noConfusion hmsg
        · rintro (⟨p', hp', hne, -⟩ | ⟨-, h2⟩)
          · exact absurd (Option.some.inj hp').symm hne
          · exact absurd h2 hd
        · intro _ h2
          exact absurd h2 hd
        · intro p' hp' hne _
          exact absurd (Option.some.inj hp').symm hne
    · cases hf : fs.pathExists p with
      | true =>
        have hres : getDocumentationPaths fs (some p) = Except.ok [p] := by
          simp [getDocumentationPaths, hp, hf]
        refine ⟨⟨?_, ?_⟩, ?_, ?_, ?_⟩
        · rintro ⟨msg, hmsg⟩
          rw [hres] at hmsg
          exact Except.noConfusion hmsg
        · rintro (⟨p', hp', -, hf'⟩ | ⟨h1, -⟩)
          · cases Option.some.inj hp'
            rw [hf] at hf'
            exact Bool.noConfusion hf'
          · rcases h1 with h1 | h1
            · exact Option.noConfusion h1
            · exact absurd (Option.some.inj h1) hp
        · rintro (h1 | h1) _
          · exact Option.noConfusion h1
          · exact absurd (Option.some.inj h1) hp
        · intro p' hp' _ _
          cases Option.some.inj hp'
          exact hres
        · rintro (h1 | h1) _
          · exact Option.noConfusion h1
          · exact absurd (Option.some.inj h1) hp
      | false =>
        have hres : getDocumentationPaths fs (some p) =
            Except.error (customErrorMessage p) := by
          simp [getDocumentationPaths, hp, hf]
        refine ⟨⟨fun _ => Or.inl ⟨p, rfl, hp, hf⟩, fun _ => ⟨_, hres⟩⟩, ?_, ?_, ?_⟩
        · rintro (h1 | h1) _
          · exact Option.noConfusion h1
          · exact absurd (Option.some.inj h1) hp
        · intro p' hp' hne hf'
          cases Option.some.inj hp'
          rw [hf] at hf'
          exact Bool.noConfusion hf'
        · rintro (h1 | h1) _
          · exact Option.noConfusion h1
          · exact absurd (Option.some.inj h1) hp

/-- Closed instance of the path-resolution specification: with no
override and empty discovery the call errors with the message naming
both the search location and the override variable. -/
theorem getDocumentationPaths_spec_witness :
    getDocumentationPaths exEmptyFS none = Except.error noXcodeErrorMessage ∧
    containsSub true "/Applications".data noXcodeErrorMessage.data = true ∧
    containsSub true "XCODE_DOC_PATH".data noXcodeErrorMessage.data = true :=
  (getDocumentationPaths_spec exEmptyFS none).2.1 (Or.inl rfl) rfl

end AppleDeepDoc

namespace AppleDeepDoc

theorem length_addContentMatches (w : Nat) (content : List Char) :
    ∀ (occs : List (Nat × Nat)) (acc : List DocMatch), acc.length ≤ 5 →
      (addContentMatches w content acc occs).length ≤ 5 := by
  intro occs
  induction occs with
  | nil => intro acc h; exact h
  | cons se rest ih =>
    intro acc h
    rcases se with ⟨s, e⟩
    simp only [addContentMatches]
    split
    · exact h
    · rename_i hlt
      apply ih
      simp only [List.length_append, List.length_cons, List.length_nil]
      omega

theorem length_docMatches (w : Nat) (cs : Bool) (q : List Char) (docName : String)
    (content : String) : (docMatches w cs q docName content).length ≤ 5 := by
  have hfn : (filenameMatches cs q docName).length ≤ 1 := by
    unfold filenameMatches
    split <;> simp
  show (if content = "" then filenameMatches cs q docName
    else addContentMatches w content.data (filenameMatches cs q docName)
      (findIter cs q content.data 0)).length ≤ 5
  split
  · omega
  · exact length_addContentMatches w content.data _ _ (by omega)

theorem matches_le_of_mem_searchResults {w : Nat} {st : IndexState} {q : String} {cs : Bool}
    {r : SearchResult} (h : r ∈ searchResults w st q cs) : r.«matches».length ≤ 5 := by
  unfold searchResults at h
  rcases List.mem_filterMap.mp h with ⟨p, hp, he⟩
  simp only at he
  split at he
  · exact Option.noConfusion he
  · cases Option.some.inj he
    exact length_docMatches w cs q.data (splitKeyName p.1)
      ((lookupAssoc st.content_cache p.1).getD "")

theorem mem_of_mem_rankSort {rs : List SearchResult} {r : SearchResult}
    (h : r ∈ rankSort rs) : r ∈ rs := by
  unfold rankSort at h
  rcases List.mem_map.mp h with ⟨pr, hpr, hsnd⟩
  have hmem : pr ∈ rs.enum := (List.perm_insertionSort enumRel rs.enum).mem_iff.mp hpr
  have h2 : pr.2 ∈ rs := by
    rw [← List.enum_map_snd rs]
    exact List.mem_map_of_mem Prod.snd hmem
  exact hsnd ▸ h2

/-- C2: no search response lists more than 20 documents, and no result in
it carries more than 5 matches (filename and content matches counted
together). -/
theorem search_caps (st : IndexState) (q : String) (cs : Bool) :
    (searchState st q cs).results.length ≤ 20 ∧
    ∀ r ∈ (searchState st q cs).results, r.«matches».length ≤ 5 := by
  constructor
  · show ((rankSort (searchResults 50 st q cs)).take 20).length ≤ 20
    rw [List.length_take]
    exact min_le_left _ _
  · intro r hr
    have hr1 : r ∈ rankSort (searchResults 50 st q cs) := List.mem_of_mem_take hr
    exact matches_le_of_mem_searchResults (mem_of_mem_rankSort hr1)

/-- Closed instance of the cap theorem on the concrete index `exSt9`. -/
theorem search_caps_witness :
    (searchState exSt9 "X" true).results.length ≤ 20 ∧ exResult9.«matches».length ≤ 5 :=
  ⟨(search_caps exSt9 "X" true).1, (search_caps exSt9 "X" true).2 exResult9 (by decide)⟩

/-- C5 counterexample: on the one-document index holding `"abcXYZdef"`,
searching `XYZ` with context-window width 2 does not produce the context
`"cXYZd"` claimed by the specification. -/
theorem context_window_example_counterexample :
    ((searchStateW 2 exSt5 "XYZ" true).results.map fun r =>
      r.«matches».map (·.context)) ≠ [["cXYZd"]] := by
  decide

/-- C5 (amended): on the one-document index holding `"abcXYZdef"`,
searching `XYZ` with context-window width 2 produces a single content
match at position 3 whose context is `"bcXYZde"` (two characters on each
side; the string `"cXYZd"` of the specification corresponds to width 1). -/
theorem context_window_example :
    (searchStateW 2 exSt5 "XYZ" true).results =
      [⟨"doc", "A", [⟨"content", "bcXYZde", some 3⟩], 1⟩] := by
  decide

/-- C10 counterexample: in `exSt10` the first-inserted entry matching `X`
is the one of installation A, with empty cached content; with its path gone from disk,
`get_document` returns the content of the later-inserted installation B
instead. -/
theorem getDocument_first_inserted_counterexample :
    firstNameMatch exSt10.docs_cache "X" = some ("A::X", exInfoA) ∧
    lookupAssoc exSt10.content_cache "A::X" = some "" ∧
    getDocument exSt10 noDisk "X" none = "hello" ∧
    lookupAssoc exSt10.content_cache "B::X" = some "hello" ∧
    ("hello" : String) ≠ "" := by
  decide

theorem getDocumentGo_first_nonempty (cc : List (String × String))
    (disk : String → Option String) (name key : String) (info : DocInfo) (c : String)
    (h2 : lookupAssoc cc key = some c) (h3 : c ≠ "") :
    ∀ cache : List (String × DocInfo), firstNameMatch cache name = some (key, info) →
      getDocumentGo cc disk name none cache = c := by
  intro cache
  induction cache with
  | nil => intro h1; exact Option.noConfusion h1
  | cons hd tl ih =>
    intro h1
    rcases hd with ⟨k', i'⟩
    by_cases hcond : splitKeyName k' = name ∨ i'.name = name
    · have hpred : (decide (splitKeyName k' = name) || decide (i'.name = name)) = true := by
        rcases hcond with h | h <;> simp [h]
      unfold firstNameMatch at h1
      rw [List.find?_cons_of_pos
        (p := fun p : String × DocInfo =>
          decide (splitKeyName p.1 = name) || decide (p.2.name = name))
        _ hpred] at h1
      have hk : k' = key := congrArg Prod.fst (Option.some.inj h1)
      rw [← hk] at h2
      simp only [getDocumentGo]
      rw [if_pos hcond]
      have hv : verMismatch none i'.xcode_source = false := rfl
      rw [hv]
      simp only [Bool.false_eq_true, if_false, h2, Option.getD_some]
      rw [if_pos h3]
    · have hpred : ¬((decide (splitKeyName k' = name) || decide (i'.name = name)) = true) := by
        obtain ⟨ha, hb⟩ := not_or.mp hcond
        simp [ha, hb]
      unfold firstNameMatch at h1
      rw [List.find?_cons_of_neg
        (p := fun p : String × DocInfo =>
          decide (splitKeyName p.1 = name) || decide (p.2.name = name))
        _ hpred] at h1
      simp only [getDocumentGo]
      rw [if_neg hcond]
      exact ih h1

/-- C10 (amended): when the first-inserted `docs_cache` entry matching the
requested name has non-empty cached content, `get_document` without a
version filter returns exactly that content; only an entry whose cached
content is empty and whose file is unreadable is skipped in favour of
later entries. -/
theorem getDocument_first_nonempty (st : IndexState) (disk : String → Option String)
    (name key : String) (info : DocInfo) (c : String)
    (h1 : firstNameMatch st.docs_cache name = some (key, info))
    (h2 : lookupAssoc st.content_cache key = some c) (h3 : c ≠ "") :
    getDocument st disk name none = c :=
  getDocumentGo_first_nonempty st.content_cache disk name key info c h2 h3 st.docs_cache h1

/-- Closed instance of the amended retrieval theorem: with non-empty
cached content for the entry of installation A, the first-inserted content is returned. -/
theorem getDocument_first_nonempty_witness :
    getDocument exSt10b noDisk "X" none = "va" :=
  getDocument_first_nonempty exSt10b noDisk "X" "A::X" exInfoA "va"
    (by decide) (by decide) (by decide)

end AppleDeepDoc

namespace AppleDeepDoc

theorem char_eq_of_toNat_eq {a b : Char} (h : a.val.toNat = b.val.toNat) : a = b :=
  Char.ext (UInt32.ext h)

theorem charsLe_total : ∀ a b : List Char, charsLe a b = true ∨ charsLe b a = true := by
  intro a
  induction a with
  | nil => intro b; exact Or.inl rfl
  | cons x xs ih =>
    intro b
    cases b with
    | nil => exact Or.inr rfl
    | cons y ys =>
      rcases Nat.lt_trichotomy x.val.toNat y.val.toNat with hlt | heq | hgt
      · left
        simp only [charsLe, Bool.or_eq_true, decide_eq_true_eq]
        exact Or.inl hlt
      · have hxy : x = y := char_eq_of_toNat_eq heq
        subst hxy
        rcases ih ys with h | h
        · left
          simp only [charsLe, Bool.or_eq_true, Bool.and_eq_true, beq_iff_eq]
          exact Or.inr ⟨rfl, h⟩
        · right
          simp only [charsLe, Bool.or_eq_true, Bool.and_eq_true, beq_iff_eq]
          exact Or.inr ⟨rfl, h⟩
      · right
        simp only [charsLe, Bool.or_eq_true, decide_eq_true_eq]
        exact Or.inl hgt

theorem charsLe_trans : ∀ a b c : List Char,
    charsLe a b = true → charsLe b c = true → charsLe a c = true := by
  intro a
  induction a with
  | nil => intro b c _ _; rfl
  | cons x xs ih =>
    intro b c hab hbc
    cases b with
    | nil => exact absurd hab (by simp [charsLe])
    | cons y ys =>
      cases c with
      | nil => exact absurd hbc (by simp [charsLe])
      | cons z zs =>
        simp only [charsLe, Bool.or_eq_true, Bool.and_eq_true, beq_iff_eq,
          decide_eq_true_eq] at hab hbc ⊢
        rcases hab with hab | ⟨hab, hab'⟩
        · rcases hbc with hbc | ⟨hbc, hbc'⟩
          · exact Or.inl (Nat.lt_trans hab hbc)
          · subst hbc
            exact Or.inl hab
        · subst hab
          rcases hbc with hbc | ⟨hbc, hbc'⟩
          · exact Or.inl hbc
          · subst hbc
            exact Or.inr ⟨rfl, ih ys zs hab' hbc'⟩

theorem strLe_total (a b : String) : strLe a b ∨ strLe b a :=
  charsLe_total a.data b.data

theorem strLe_trans {a b c : String} (h1 : strLe a b) (h2 : strLe b c) : strLe a c :=
  charsLe_trans a.data b.data c.data h1 h2

theorem sortedSet_sorted (l : List String) :
    (sortedSet l).Pairwise fun a b => strLe a b ∧ a ≠ b := by
  haveI hTot : IsTotal String strLe := ⟨strLe_total⟩
  haveI hTrans : IsTrans String strLe := ⟨fun _ _ _ => strLe_trans⟩
  have hsorted : (sortedSet l).Pairwise strLe := List.sorted_insertionSort strLe l.dedup
  have hnodup : (sortedSet l).Nodup :=
    (List.perm_insertionSort strLe l.dedup).symm.nodup l.nodup_dedup
  exact hsorted.and hnodup

theorem mem_sortedSet {l : List String} {a : String} : a ∈ sortedSet l ↔ a ∈ l := by
  unfold sortedSet
  rw [(List.perm_insertionSort strLe l.dedup).mem_iff]
  exact List.mem_dedup

theorem mem_versionsForDoc {cache : List (String × DocInfo)} {s t : String} :
    t ∈ versionsForDoc cache s ↔ ∃ p ∈ cache, p.2.name = s ∧ p.2.xcode_source = t := by
  unfold versionsForDoc
  rw [mem_sortedSet, List.mem_filterMap]
  constructor
  · rintro ⟨p, hp, he⟩
    by_cases hn : p.2.name = s
    · rw [if_pos hn] at he
      exact ⟨p, hp, hn, Option.some.inj he⟩
    · rw [if_neg hn] at he
      exact Option.noConfusion he
  · rintro ⟨p, hp, hn, ht⟩
    exact ⟨p, hp, by rw [if_pos hn, ht]⟩

theorem listDocumentsAux_filter_seen (cache : List (String × DocInfo)) (s : String) :
    ∀ (rest : List (String × DocInfo)) (seen : List String), s ∈ seen →
      (listDocumentsAux cache none rest seen).filter (fun d => decide (d.name = s)) = [] := by
  intro rest
  induction rest with
  | nil => intro seen _; rfl
  | cons hd tl ih =>
    intro seen hs
    rcases hd with ⟨k, info⟩
    simp only [listDocumentsAux]
    by_cases hseen : info.name ∈ seen
    · rw [if_pos hseen]
      exact ih seen hs
    · rw [if_neg hseen]
      have hskip : filterSkips none info.name = false := rfl
      rw [hskip]
      simp only [Bool.false_eq_true, if_false]
      have hne : info.name ≠ s := fun he => hseen (he ▸ hs)
      rw [List.filter_cons]
      simp only [decide_eq_true_eq]
      rw [if_neg (by simpa using hne)]
      exact ih (info.name :: seen) (List.mem_cons_of_mem _ hs)

theorem listDocumentsAux_filter_count (cache : List (String × DocInfo)) (s : String) :
    ∀ (rest : List (String × DocInfo)) (seen : List String), s ∉ seen →
      ((listDocumentsAux cache none rest seen).filter
        (fun d => decide (d.name = s))).length =
      (if rest.any (fun p => p.2.name == s) then 1 else 0) := by
  intro rest
  induction rest with
  | nil => intro seen _; rfl
  | cons hd tl ih =>
    intro seen hs
    rcases hd with ⟨k, info⟩
    simp only [listDocumentsAux, List.any_cons]
    by_cases hseen : info.name ∈ seen
    · rw [if_pos hseen]
      have hne : (info.name == s) = false := by
        have : info.name ≠ s := fun he => hs (he ▸ hseen)
        simpa using this
      simp only [hne, Bool.false_or]
      exact ih seen hs
    · rw [if_neg hseen]
      have hskip : filterSkips none info.name = false := rfl
      rw [hskip]
      simp only [Bool.false_eq_true, if_false]
      by_cases hn : info.name = s
      · rw [List.filter_cons]
        simp only [decide_eq_true_eq]
        rw [if_pos (by simpa using hn)]
        rw [listDocumentsAux_filter_seen cache s tl (info.name :: seen)
          (hn ▸ List.mem_cons_self info.name seen)]
        have hb : (info.name == s) = true := by simpa using hn
        simp only [hb, Bool.true_or, if_true]
        rfl
      · rw [List.filter_cons]
        simp only [decide_eq_true_eq]
        rw [if_neg (by simpa using hn)]
        have hs' : s ∉ info.name :: seen := by
          intro hmem
          rcases List.mem_cons.mp hmem with he | he
          · exact hn he.symm
          · exact hs he
        rw [ih (info.name :: seen) hs']
        have hb : (info.name == s) = false := by simpa using hn
        simp only [hb, Bool.false_or]

theorem mem_listDocumentsAux (cache : List (String × DocInfo)) (filt : Option String) :
    ∀ (rest : List (String × DocInfo)) (seen : List String) (d : DocSummary),
      d ∈ listDocumentsAux cache filt rest seen →
      ∃ p ∈ rest, d = ⟨p.2.name, p.2.topics, p.2.size, versionsForDoc cache p.2.name⟩ := by
  intro rest
  induction rest with
  | nil => intro seen d hd; exact absurd hd (List.not_mem_nil d)
  | cons hd tl ih =>
    intro seen d hmem
    rcases hd with ⟨k, info⟩
    simp only [listDocumentsAux] at hmem
    by_cases hseen : info.name ∈ seen
    · rw [if_pos hseen] at hmem
      rcases ih seen d hmem with ⟨p, hp, he⟩
      exact ⟨p, List.mem_cons_of_mem _ hp, he⟩
    · rw [if_neg hseen] at hmem
      by_cases hskip : filterSkips filt info.name = true
      · rw [hskip] at hmem
        simp only [if_true] at hmem
        rcases ih seen d hmem with ⟨p, hp, he⟩
        exact ⟨p, List.mem_cons_of_mem _ hp, he⟩
      · rw [Bool.not_eq_true] at hskip
        rw [hskip] at hmem
        simp only [Bool.false_eq_true, if_false] at hmem
        rcases List.mem_cons.mp hmem with he | he
        · exact ⟨(k, info), List.mem_cons_self _ _, he⟩
        · rcases ih (info.name :: seen) d he with ⟨p, hp, hpe⟩
          exact ⟨p, List.mem_cons_of_mem _ hp, hpe⟩

/-- C8: a stem occurring in N installations yields exactly one
`list_documents` entry, and the installation-tag list of that entry is
strictly sorted (hence duplicate-free) and holds exactly the tags whose
installation contains the stem. -/
theorem listDocuments_dedup (cache : List (String × DocInfo)) (s : String)
    (h : ∃ p ∈ cache, p.2.name = s) :
    ((listDocuments cache none).filter fun d => decide (d.name = s)).length = 1 ∧
    ∀ d ∈ listDocuments cache none, d.name = s →
      (d.xcode_versions.Pairwise fun a b => strLe a b ∧ a ≠ b) ∧
      ∀ t, t ∈ d.xcode_versions ↔ ∃ p ∈ cache, p.2.name = s ∧ p.2.xcode_source = t := by
  constructor
  · have hperm := List.perm_insertionSort summaryLe (listDocumentsAux cache none cache [])
    unfold listDocuments
    rw [(hperm.filter (fun d => decide (d.name = s))).length_eq]
    rw [listDocumentsAux_filter_count cache s cache [] (List.not_mem_nil s)]
    rcases h with ⟨p, hp, hn⟩
    rw [if_pos (List.any_eq_true.mpr ⟨p, hp, by simpa using hn⟩)]
  · intro d hd hname
    have hd' : d ∈ listDocumentsAux cache none cache [] := by
      unfold listDocuments at hd
      exact (List.perm_insertionSort summaryLe _).mem_iff.mp hd
    rcases mem_listDocumentsAux cache none cache [] d hd' with ⟨p, hp, he⟩
    have hv : d.xcode_versions = versionsForDoc cache s := by
      rw [he] at hname ⊢
      simp only at hname ⊢
      rw [hname]
    rw [hv]
    exact ⟨sortedSet_sorted _, fun t => mem_versionsForDoc⟩

/-- Closed instance of the deduplication theorem on the two-installation
cache `exCache8`: the stem `doc` yields one entry with tags A and B. -/
theorem listDocuments_dedup_witness :
    ((listDocuments exCache8 none).filter fun d => decide (d.name = "doc")).length = 1 ∧
    (exSummary8.xcode_versions.Pairwise fun a b => strLe a b ∧ a ≠ b) ∧
    ∀ t, t ∈ exSummary8.xcode_versions ↔
      ∃ p ∈ exCache8, p.2.name = "doc" ∧ p.2.xcode_source = t := by
  have h := listDocuments_dedup exCache8 "doc" ⟨("A::doc", ⟨"/a/doc.md", "doc", 1, "A", []⟩),
    by decide, rfl⟩
  exact ⟨h.1, h.2 exSummary8 (by decide) rfl⟩

end AppleDeepDoc

namespace AppleDeepDoc

theorem matchesAt_length {cs : Bool} : ∀ {q l : List Char}, matchesAt cs q l = true →
    q.length ≤ l.length := by
  intro q
  induction q with
  | nil => intro l _; simp
  | cons a as ih =>
    intro l h
    cases l with
    | nil => exact absurd h (by simp [matchesAt])
    | cons b bs =>
      simp only [matchesAt, Bool.and_eq_true] at h
      simpa using ih h.2

theorem findIterAux_spec (cs : Bool) (q : List Char) :
    ∀ (fuel : Nat) (l : List Char) (i s e : Nat),
      (s, e) ∈ findIterAux cs q fuel l i →
      i ≤ s ∧ e = s + q.length ∧ s - i + q.length ≤ l.length ∧
      matchesAt cs q (l.drop (s - i)) = true := by
  intro fuel
  induction fuel with
  | zero =>
    intro l i s e h
    cases l with
    | nil =>
      simp only [findIterAux] at h
      split at h
      · rename_i hq
        have hq' : q = [] := List.isEmpty_iff.mp hq
        rcases List.mem_singleton.mp h with he
        obtain ⟨hs, he'⟩ := Prod.mk.injEq .. ▸ he
        subst hs he' hq'
        exact ⟨Nat.le_refl _, rfl, by simp, by simp [matchesAt]⟩
      · exact absurd h (List.not_mem_nil _)
    | cons c rest => exact absurd h (List.not_mem_nil _)
  | succ fuel ih =>
    intro l i s e h
    cases l with
    | nil =>
      simp only [findIterAux] at h
      split at h
      · rename_i hq
        have hq' : q = [] := List.isEmpty_iff.mp hq
        rcases List.mem_singleton.mp h with he
        obtain ⟨hs, he'⟩ := Prod.mk.injEq .. ▸ he
        subst hs he' hq'
        exact ⟨Nat.le_refl _, rfl, by simp, by simp [matchesAt]⟩
      · exact absurd h (List.not_mem_nil _)
    | cons c rest =>
      simp only [findIterAux] at h
      by_cases hq : q.isEmpty = true
      · rw [if_pos hq] at h
        have hq' : q = [] := List.isEmpty_iff.mp hq
        subst hq'
        rcases List.mem_cons.mp h with he | he
        · obtain ⟨hs, he'⟩ := Prod.mk.injEq .. ▸ he
          subst hs he'
          exact ⟨Nat.le_refl _, rfl, by simp, by simp [matchesAt]⟩
        · obtain ⟨h1, h2, h3, h4⟩ := ih rest (i + 1) s e he
          refine ⟨by omega, by simpa using h2, by simp; omega, ?_⟩
          have hd : s - i = (s - (i + 1)) + 1 := by omega
          rw [hd, List.drop_succ_cons]
          exact h4
      · rw [if_neg hq] at h
        have hqne : q ≠ [] := fun he => hq (by simp [he])
        have hql : 1 ≤ q.length := List.length_pos.mpr hqne
        by_cases hm : matchesAt cs q (c :: rest) = true
        · rw [if_pos hm] at h
          rcases List.mem_cons.mp h with he | he
          · obtain ⟨hs, he'⟩ := Prod.mk.injEq .. ▸ he
            subst hs he'
            have hlen := matchesAt_length hm
            refine ⟨Nat.le_refl _, rfl, by simpa using hlen, ?_⟩
            simpa using hm
          · obtain ⟨h1, h2, h3, h4⟩ := ih _ (i + q.length) s e he
            have hdl : (rest.drop (q.length - 1)).length = rest.length - (q.length - 1) :=
              List.length_drop _ _
            refine ⟨by omega, h2, by simp; omega, ?_⟩
            rw [List.drop_drop] at h4
            have hd : s - i = (q.length - 1 + (s - (i + q.length))) + 1 := by omega
            rw [hd, List.drop_succ_cons]
            exact h4
        · rw [if_neg hm] at h
          obtain ⟨h1, h2, h3, h4⟩ := ih rest (i + 1) s e h
          refine ⟨by omega, h2, by simp; omega, ?_⟩
          have hd : s - i = (s - (i + 1)) + 1 := by omega
          rw [hd, List.drop_succ_cons]
          exact h4

theorem findIter_spec {cs : Bool} {q content : List Char} {s e : Nat}
    (h : (s, e) ∈ findIter cs q content 0) :
    e = s + q.length ∧ s + q.length ≤ content.length ∧
    matchesAt cs q (content.drop s) = true := by
  obtain ⟨-, h2, h3, h4⟩ := findIterAux_spec cs q content.length content 0 s e h
  rw [Nat.sub_zero] at h3 h4
  exact ⟨h2, h3, h4⟩

theorem mem_addContentMatches (w : Nat) (content : List Char) :
    ∀ (occs : List (Nat × Nat)) (acc : List DocMatch) (m : DocMatch),
      m ∈ addContentMatches w content acc occs →
      m ∈ acc ∨ ∃ se ∈ occs,
        m = ⟨"content", String.mk (mkContextW w content se.1 se.2), some se.1⟩ := by
  intro occs
  induction occs with
  | nil => intro acc m h; exact Or.inl h
  | cons se rest ih =>
    intro acc m h
    rcases se with ⟨s, e⟩
    simp only [addContentMatches] at h
    split at h
    · exact Or.inl h
    · rcases ih _ m h with hacc | ⟨se', hse', hme⟩
      · rcases List.mem_append.mp hacc with hl | hr
        · exact Or.inl hl
        · exact Or.inr ⟨(s, e), List.mem_cons_self _ _, List.mem_singleton.mp hr⟩
      · exact Or.inr ⟨se', List.mem_cons_of_mem _ hse', hme⟩

theorem position_filenameMatches {cs : Bool} {q : List Char} {docName : String}
    {m : DocMatch} (h : m ∈ filenameMatches cs q docName) : m.position = none := by
  unfold filenameMatches at h
  split at h
  · rw [List.mem_singleton.mp h]
  · exact absurd h (List.not_mem_nil m)

/-- C9 counterexample: searching `X` in the document `"éX"` records
position 1 (the code-point index of the match), while the UTF-8 byte
offset of the match start is 2. -/
theorem search_position_byte_offset_counterexample :
    ((searchState exSt9 "X" true).results.map fun r =>
      r.«matches».filterMap (·.position)) = [[1]] ∧
    utf8Length ("éX".data.take 1) = 2 ∧
    utf8Length ("éX".data.take 1) ≠ 1 := by
  decide

/-- C9 (amended): every position recorded with a content match is the
code-point (character) offset of the match start within the cached text
of the document: the query matches there, character-wise, within bounds.  It
equals the UTF-8 byte offset only when the preceding text is ASCII. -/
theorem search_position_is_char_offset (st : IndexState) (q : String) (cs : Bool) :
    ∀ r ∈ (searchState st q cs).results, ∀ m ∈ r.«matches», ∀ pos : Nat,
      m.position = some pos →
      ∃ key info content, (key, info) ∈ st.docs_cache ∧
        splitKeyName key = r.document ∧
        lookupAssoc st.content_cache key = some content ∧
        pos + q.data.length ≤ content.data.length ∧
        matchesAt cs q.data (content.data.drop pos) = true := by
  intro r hr m hm pos hpos
  have hr1 : r ∈ searchResults 50 st q cs := mem_of_mem_rankSort (List.mem_of_mem_take hr)
  unfold searchResults at hr1
  rcases List.mem_filterMap.mp hr1 with ⟨p, hp, he⟩
  simp only at he
  split at he
  · exact Option.noConfusion he
  · cases Option.some.inj he
    simp only [docMatches] at hm
    by_cases hc : (lookupAssoc st.content_cache p.1).getD "" = ""
    · rw [if_pos hc] at hm
      rw [position_filenameMatches hm] at hpos
      exact Option.noConfusion hpos
    · rw [if_neg hc] at hm
      rcases mem_addContentMatches _ _ _ _ m hm with hfn | ⟨se, hse, hme⟩
      · rw [position_filenameMatches hfn] at hpos
        exact Option.noConfusion hpos
      · rcases se with ⟨s', e'⟩
        have hps : m.position = some s' := by rw [hme]
        have hsp : s' = pos := Option.some.inj (hps.symm.trans hpos)
        subst hsp
        obtain ⟨c, hl⟩ : ∃ c, lookupAssoc st.content_cache p.1 = some c := by
          cases hl : lookupAssoc st.content_cache p.1 with
          | none => exact absurd (by rw [hl]; rfl) hc
          | some c => exact ⟨c, rfl⟩
        rw [hl] at hse
        simp only [Option.getD_some] at hse
        obtain ⟨-, hlen, hmt⟩ := findIter_spec hse
        exact ⟨p.1, p.2, c, by simpa using hp, rfl, hl, hlen, hmt⟩

/-- Closed instance of the char-offset theorem on the non-ASCII document
`"éX"`. -/
theorem search_position_is_char_offset_witness :
    ∃ key info content, (key, info) ∈ exSt9.docs_cache ∧
      splitKeyName key = exResult9.document ∧
      lookupAssoc exSt9.content_cache key = some content ∧
      1 + "X".data.length ≤ content.data.length ∧
      matchesAt true "X".data (content.data.drop 1) = true :=
  search_position_is_char_offset exSt9 "X" true exResult9 (by decide)
    ⟨"content", "éX", some 1⟩ (by decide) 1 rfl

end AppleDeepDoc

namespace AppleDeepDoc

theorem keyLt_trichotomy (x y : Nat × Int) : keyLt x y ∨ x = y ∨ keyLt y x := by
  rcases x with ⟨x1, x2⟩
  rcases y with ⟨y1, y2⟩
  simp only [keyLt, Prod.mk.injEq]
  omega

theorem keyLt_irrefl (x : Nat × Int) : ¬keyLt x x := by
  intro h
  rcases x with ⟨x1, x2⟩
  simp only [keyLt] at h
  omega

theorem keyLt_trans {x y z : Nat × Int} (h1 : keyLt x y) (h2 : keyLt y z) : keyLt x z := by
  rcases x with ⟨x1, x2⟩
  rcases y with ⟨y1, y2⟩
  rcases z with ⟨z1, z2⟩
  simp only [keyLt] at h1 h2 ⊢
  omega

theorem enumRel_total (a b : Nat × SearchResult) : enumRel a b ∨ enumRel b a := by
  rcases keyLt_trichotomy (rankKey a.2) (rankKey b.2) with h | h | h
  · exact Or.inl (Or.inl h)
  · rcases Nat.le_total a.1 b.1 with hle | hle
    · exact Or.inl (Or.inr ⟨h, hle⟩)
    · exact Or.inr (Or.inr ⟨h.symm, hle⟩)
  · exact Or.inr (Or.inl h)

theorem enumRel_trans (a b c : Nat × SearchResult)
    (h1 : enumRel a b) (h2 : enumRel b c) : enumRel a c := by
  rcases h1 with h1 | ⟨he1, hi1⟩
  · rcases h2 with h2 | ⟨he2, hi2⟩
    · exact Or.inl (keyLt_trans h1 h2)
    · exact Or.inl (he2 ▸ h1)
  · rcases h2 with h2 | ⟨he2, hi2⟩
    · exact Or.inl (he1.symm ▸ h2)
    · exact Or.inr ⟨he1.trans he2, Nat.le_trans hi1 hi2⟩

theorem rankKey_eq_of_true {r : SearchResult} (h : hasFilenameMatch r = true) :
    rankKey r = (0, -(r.total_matches : Int)) := by
  simp [rankKey, h]

theorem rankKey_eq_of_false {r : SearchResult} (h : hasFilenameMatch r = false) :
    rankKey r = (1, -(r.total_matches : Int)) := by
  simp [rankKey, h]

theorem enumRel_imp (a b : Nat × SearchResult) (h : enumRel a b) :
    (hasFilenameMatch b.2 = true → hasFilenameMatch a.2 = true) ∧
    (hasFilenameMatch a.2 = hasFilenameMatch b.2 →
      b.2.total_matches ≤ a.2.total_matches) := by
  constructor
  · intro hb
    cases hx : hasFilenameMatch a.2 with
    | true => rfl
    | false =>
      exfalso
      rw [enumRel, rankKey_eq_of_false hx, rankKey_eq_of_true hb] at h
      simp only [keyLt, Prod.mk.injEq] at h
      omega
  · intro heq
    cases hfa : hasFilenameMatch a.2 <;> cases hfb : hasFilenameMatch b.2 <;>
      rw [hfa, hfb] at heq
    · rw [enumRel, rankKey_eq_of_false hfa, rankKey_eq_of_false hfb] at h
      simp only [keyLt, Prod.mk.injEq] at h
      omega
    · exact absurd heq (by simp)
    · exact absurd heq (by simp)
    · rw [enumRel, rankKey_eq_of_true hfa, rankKey_eq_of_true hfb] at h
      simp only [keyLt, Prod.mk.injEq] at h
      omega

theorem enum_pairwise_fst_lt {α : Type} (l : List α) :
    l.enum.Pairwise fun a b => a.1 < b.1 := by
  rw [List.enum_eq_zip_range]
  have h2 : ((List.range l.length).zip l).map Prod.fst = List.range l.length :=
    List.map_fst_zip _ _ (by simp)
  have h1 : (((List.range l.length).zip l).map Prod.fst).Pairwise (· < ·) := by
    rw [h2]
    exact List.pairwise_lt_range _
  exact List.pairwise_map.mp h1

theorem rankSort_take_pairwise (rs : List SearchResult) :
    ((rankSort rs).take 20).Pairwise fun a b =>
      (hasFilenameMatch b = true → hasFilenameMatch a = true) ∧
      (hasFilenameMatch a = hasFilenameMatch b → b.total_matches ≤ a.total_matches) := by
  haveI htot : IsTotal (Nat × SearchResult) enumRel := ⟨enumRel_total⟩
  haveI htrans : IsTrans (Nat × SearchResult) enumRel := ⟨enumRel_trans⟩
  have hsorted : (rs.enum.insertionSort enumRel).Pairwise enumRel :=
    List.sorted_insertionSort enumRel rs.enum
  apply List.Pairwise.sublist (List.take_sublist _ _)
  exact hsorted.map Prod.snd (fun a b h => enumRel_imp a b h)

theorem rankSort_take_filter_sublist (rs : List SearchResult) (k : Nat × Int) :
    List.Sublist (((rankSort rs).take 20).filter fun r => decide (rankKey r = k))
      (rs.filter fun r => decide (rankKey r = k)) := by
  haveI htot : IsTotal (Nat × SearchResult) enumRel := ⟨enumRel_total⟩
  haveI htrans : IsTrans (Nat × SearchResult) enumRel := ⟨enumRel_trans⟩
  have hsorted : (rs.enum.insertionSort enumRel).Pairwise enumRel :=
    List.sorted_insertionSort enumRel rs.enum
  have hperm : List.Perm (rs.enum.insertionSort enumRel) rs.enum :=
    List.perm_insertionSort enumRel rs.enum
  have henum : rs.enum.Pairwise fun a b => a.1 < b.1 := enum_pairwise_fst_lt rs
  have hfilter_eq : ((rs.enum.insertionSort enumRel).filter
        fun pr => decide (rankKey pr.2 = k))
      = rs.enum.filter fun pr => decide (rankKey pr.2 = k) := by
    have hpermf := hperm.filter fun pr : Nat × SearchResult => decide (rankKey pr.2 = k)
    have hsortedf : (((rs.enum.insertionSort enumRel).filter
        fun pr => decide (rankKey pr.2 = k))).Pairwise fun a b => a.1 ≤ b.1 := by
      have h1 := hsorted.filter fun pr : Nat × SearchResult => decide (rankKey pr.2 = k)
      apply List.Pairwise.imp_of_mem ?_ h1
      intro a b ha hb hrel
      have hka : rankKey a.2 = k := by simpa using List.of_mem_filter ha
      have hkb : rankKey b.2 = k := by simpa using List.of_mem_filter hb
      rcases hrel with hlt | ⟨heq, hle⟩
      · rw [hka, hkb] at hlt
        exact absurd hlt (keyLt_irrefl k)
      · exact hle
    have henumf : ((rs.enum.filter fun pr => decide (rankKey pr.2 = k))).Pairwise
        fun a b => a.1 < b.1 := henum.filter _
    have hnodupf : (((rs.enum.insertionSort enumRel).filter
        fun pr => decide (rankKey pr.2 = k))).Pairwise fun a b => a.1 ≠ b.1 := by
      have h2 : ((rs.enum.filter fun pr => decide (rankKey pr.2 = k))).Pairwise
          fun a b => a.1 ≠ b.1 := henumf.imp fun h => Nat.ne_of_lt h
      have h3 : (((rs.enum.filter fun pr => decide (rankKey pr.2 = k)).map
          Prod.fst)).Pairwise (· ≠ ·) := List.pairwise_map.mpr h2
      have h4 : ((((rs.enum.insertionSort enumRel).filter
          fun pr => decide (rankKey pr.2 = k)).map Prod.fst)).Pairwise (· ≠ ·) :=
        ((hpermf.map Prod.fst).symm).nodup h3
      exact List.pairwise_map.mp h4
    have hstrict : (((rs.enum.insertionSort enumRel).filter
        fun pr => decide (rankKey pr.2 = k))).Pairwise fun a b => a.1 < b.1 :=
      (hsortedf.and hnodupf).imp fun h => Nat.lt_of_le_of_ne h.1 h.2
    haveI : IsAntisymm (Nat × SearchResult) fun a b => a.1 < b.1 :=
      ⟨fun a b h1 h2 => absurd (Nat.lt_trans h1 h2) (Nat.lt_irrefl _)⟩
    exact List.eq_of_perm_of_sorted hpermf hstrict henumf
  have heq2 : (rankSort rs).filter (fun r => decide (rankKey r = k)) =
      rs.filter fun r => decide (rankKey r = k) := by
    have e1 : (rankSort rs).filter (fun r => decide (rankKey r = k)) =
        ((rs.enum.insertionSort enumRel).filter fun pr => decide (rankKey pr.2 = k)).map
          Prod.snd := List.filter_map _ _
    have e3 : ((rs.enum.filter fun pr => decide (rankKey pr.2 = k)).map Prod.snd) =
        (rs.enum.map Prod.snd).filter fun r => decide (rankKey r = k) :=
      (List.filter_map (p := fun r => decide (rankKey r = k)) Prod.snd rs.enum).symm
    rw [e1, hfilter_eq, e3, List.enum_map_snd]
  have s1 := List.Sublist.filter (fun r => decide (rankKey r = k))
    (List.take_sublist 20 (rankSort rs))
  rw [heq2] at s1
  exact s1

/-- C1: in every search response, a document with a filename-type match
never follows a document without one; within the same group total match
counts are non-increasing; and documents tied on both criteria appear as
a subsequence of the index-enumeration-order result list (the Python sort
is stable). -/
theorem search_ranking (st : IndexState) (q : String) (cs : Bool) :
    ((searchState st q cs).results.Pairwise fun a b =>
      (hasFilenameMatch b = true → hasFilenameMatch a = true) ∧
      (hasFilenameMatch a = hasFilenameMatch b → b.total_matches ≤ a.total_matches)) ∧
    ∀ k : Nat × Int,
      List.Sublist ((searchState st q cs).results.filter fun r => decide (rankKey r = k))
        ((searchResults 50 st q cs).filter fun r => decide (rankKey r = k)) := by
  have hres : (searchState st q cs).results
      = (rankSort (searchResults 50 st q cs)).take 20 := rfl
  rw [hres]
  exact ⟨rankSort_take_pairwise _, fun k => rankSort_take_filter_sublist _ k⟩

end AppleDeepDoc

namespace AppleDeepDoc

/-- Closed instance of the ranking theorem: the tie subsequence property
at a concrete index, query and rank key. -/
theorem search_ranking_witness :
    List.Sublist ((searchState exSt5 "XYZ" true).results.filter fun r =>
        decide (rankKey r = (1, -1)))
      ((searchResults 50 exSt5 "XYZ" true).filter fun r =>
        decide (rankKey r = (1, -1))) :=
  (search_ranking exSt5 "XYZ" true).2 (1, -1)

end AppleDeepDoc
